import Mathlib

/-!
Verification development for the snowflake rainbow-table engine.

The C sources are shallowly embedded: machine integers become `Nat` with
explicit `% 2^32` where overflow matters, byte buffers become `List Nat`
(each element < 256), and loops become structural recursions on an explicit
iteration bound that provably suffices.  Definitions follow the C sources
line by line; the few definitions written from the specification's wording
instead are clearly marked as such.
-/

namespace Snowflake

/-- Size of the 32-bit value space, `2^32`. -/
def U32 : Nat := 4294967296

/-- MAX_SEED from the source: `0xffffffff`. -/
def MAX_SEED : Nat := 4294967295

/-- A chain record: `{ chainEntry startpoint; chainEntry endpoint; }`. -/
structure chain where
  startpoint : Nat
  endpoint : Nat
deriving DecidableEq

/-- Default chain used for (provably in-bounds) `getD` accesses. -/
def chainD : chain := ⟨0, 0⟩

/-! ## Reduction function

C source:
```
chainEntry reduce(char *hash, unsigned int hashLen, unsigned int round) {
  chainEntry reduced = 0;
  chainEntry *hashInt = (chainEntry *) hash;
  for (i = 0; i < hashLen / sizeof(chainEntry); i ++, hashInt ++)
    reduced ^= *hashInt;
  for (i = 0; i < hashLen % sizeof(chainEntry); i++)
    reduced += (chainEntry) hash[hashLen - 1 - i];
  return reduced^round;
}
```
`hash` is `char *`, so `hash[...]` is a signed char on the target platform
(x86): a byte `b >= 0x80` converts to `b - 256`, and the cast to
`chainEntry` (u32) sign-extends it to `2^32 - 256 + b`.  `*hashInt` reads a
host-endian (little-endian) 32-bit word. -/

/-- The `i`-th little-endian 32-bit word of the digest (what `*hashInt` reads). -/
def leWordAt (d : List Nat) (i : Nat) : Nat :=
  d.getD (4 * i) 0 + 256 * d.getD (4 * i + 1) 0 +
    65536 * d.getD (4 * i + 2) 0 + 16777216 * d.getD (4 * i + 3) 0

/-- Accumulator of the first loop of `reduce` after `k` iterations:
XOR of the first `k` little-endian words. -/
def xorWords (d : List Nat) : Nat → Nat
  | 0 => 0
  | k + 1 => xorWords d k ^^^ leWordAt d k

/-- The value `(chainEntry) hash[p]` where `hash` is `char *`:
sign extension of the byte at `p`. -/
def signExtByte (b : Nat) : Nat :=
  if b < 128 then b else U32 - 256 + b

/-- Accumulator of the second loop of `reduce` after `k` iterations, before
the final `% 2^32`: sum of the sign-extended trailing bytes
`hash[hashLen - 1 - i]` for `i < k`. -/
def tailAdd (d : List Nat) (hashLen : Nat) : Nat → Nat
  | 0 => 0
  | k + 1 => tailAdd d hashLen k + signExtByte (d.getD (hashLen - 1 - k) 0)

/-- Shallow embedding of `reduce`.  The two loop accumulations are composed
and the additions are taken `% 2^32` once at the end (the XOR loop never
leaves `[0, 2^32)` and u32 addition is associative modulo `2^32`). -/
def reduce (d : List Nat) (hashLen round : Nat) : Nat :=
  ((xorWords d (hashLen / 4) + tailAdd d hashLen (hashLen % 4)) % U32) ^^^ round

/-- Sum of the raw (unsigned) trailing bytes after `k` iterations: what the
second loop of `reduce` would accumulate if `hash` were `unsigned char *`. -/
def tailPlain (d : List Nat) (hashLen : Nat) : Nat → Nat
  | 0 => 0
  | k + 1 => tailPlain d hashLen k + d.getD (hashLen - 1 - k) 0

/-- Written from the spec's words (claim C6): "the XOR of the first
`floor(digest_len/4)` little-endian 32-bit words of d, plus each of the
`digest_len mod 4` trailing bytes read from position `digest_len - 1 - i`
(i from 0) added in, the whole XORed with round".  The trailing bytes are
taken at their plain unsigned value, as the claim's wording says. -/
def reduceSpecClaimed (d : List Nat) (len round : Nat) : Nat :=
  let wordFold := ((List.range (len / 4)).map (leWordAt d)).foldl (fun a w => a ^^^ w) 0
  let tailMix := ((List.range (len % 4)).map (fun i => d.getD (len - 1 - i) 0)).foldl (· + ·) 0
  ((wordFold + tailMix) % U32) ^^^ round

/-- The claim C6 formula amended at the single point the code forces: each
trailing byte is added sign-extended (a byte `b ≥ 0x80` contributes
`b - 256` modulo `2^32`), everything else as the claim says. -/
def reduceSpecAmended (d : List Nat) (len round : Nat) : Nat :=
  let wordFold := ((List.range (len / 4)).map (leWordAt d)).foldl (fun a w => a ^^^ w) 0
  let tailMix := ((List.range (len % 4)).map (fun i => signExtByte (d.getD (len - 1 - i) 0))).foldl (· + ·) 0
  ((wordFold + tailMix) % U32) ^^^ round

/-! ## Chain walking and regeneration

`memcmp(a, b, n) == 0` compares the first `n` bytes.  A hash function is a
pure `Nat → List Nat` writing its digest bytes into the scratch buffer. -/

/-- Test `memcmp(a, b, n) == 0` on byte lists. -/
def memcmpEq (a b : List Nat) (n : Nat) : Bool :=
  decide (a.take n = b.take n)

/-- The chain values: `s_0 = start`, `s_{j+1} = reduce(H(s_j), hlen, j)`.
This is the sequence the loops of `generateChain` and `regenerateChain`
step through. -/
def sChain (H : Nat → List Nat) (hlen start : Nat) : Nat → Nat
  | 0 => start
  | j + 1 => reduce (H (sChain H hlen start j)) hlen j

/-- Loop of `regenerateChain`, recursing on the remaining iteration count
`rem` with current round index `i` and current value `tmp`:
```
for (i = 0; i < chainLen; i ++) {
  if (!memcmp(hashFunc(tmp, buf), targetHash, hashLen)) { *seed = tmp; return 1; }
  tmp = reduce(buf, hashLen, i);
}
return 0;
```
`buf` holds `H(tmp)` when `reduce` is applied. -/
def regenAux (H : Nat → List Nat) (hlen : Nat) (target : List Nat) : Nat → Nat → Nat → Option Nat
  | 0, _, _ => none
  | rem + 1, i, tmp =>
    if memcmpEq (H tmp) target hlen then some tmp
    else regenAux H hlen target rem (i + 1) (reduce (H tmp) hlen i)

/-- Shallow embedding of `regenerateChain`: `some seed` models returning 1
with `*seed` set; `none` models returning 0 (false positive). -/
def regenerateChain (startpoint chainLen : Nat) (H : Nat → List Nat) (hashLen : Nat)
    (target : List Nat) : Option Nat :=
  regenAux H hashLen target chainLen 0 startpoint

/-! ## Quicksort (`swap`, `quickSortTable`)

C source:
```
void quickSortTable(chain *table, unsigned int beg, unsigned int end) {
  if (end > beg + 1) {
    int piv = table[beg].endpoint, l = beg+1, r = end;
    while (l < r) {
      if (table[l].endpoint <= piv) l++;
      else swap(&table[l], &table[--r]);
    }
    swap(&table[--l], &table[beg]);
    quickSortTable(table, beg, l);
    quickSortTable(table, r, end);
  }
}
```
The pivot is stored in an `int` and compared against an `unsigned int`; the
usual arithmetic conversions convert it back to `unsigned`, recovering the
original 32-bit value, so the comparison is the plain unsigned `≤` on the
endpoint values modelled here as `Nat`.  The `while` loop shrinks `r - l` by
exactly one per iteration, so `r - l` initial steps always reach `l = r`;
`partLoop` is given that many steps as its recursion bound. -/

/-- The C `swap(&table[i], &table[j])` on a list. -/
def swapChains (t : List chain) (i j : Nat) : List chain :=
  let a := t.getD i chainD
  let b := t.getD j chainD
  (t.set i b).set j a

/-- The partition `while` loop of `quickSortTable`; returns the final table
and the final values of `l` and `r` (equal when the bound suffices). -/
def partLoop (piv : Nat) : Nat → List chain → Nat → Nat → List chain × Nat × Nat
  | 0, t, l, r => (t, l, r)
  | fuel + 1, t, l, r =>
    if l < r then
      if (t.getD l chainD).endpoint ≤ piv then partLoop piv fuel t (l + 1) r
      else partLoop piv fuel (swapChains t l (r - 1)) l (r - 1)
    else (t, l, r)

/-- Recursion of `quickSortTable` on an explicit depth bound (each recursive
call strictly shrinks `e - beg`, so `e - beg` levels always suffice). -/
def qsAux : Nat → List chain → Nat → Nat → List chain
  | 0, t, _, _ => t
  | fuel + 1, t, beg, e =>
    if beg + 1 < e then
      let piv := (t.getD beg chainD).endpoint
      let p := partLoop piv (e - (beg + 1)) t (beg + 1) e
      let t2 := swapChains p.1 (p.2.1 - 1) beg
      qsAux fuel (qsAux fuel t2 beg (p.2.1 - 1)) p.2.2 e
    else t

/-- Shallow embedding of `quickSortTable table beg end`. -/
def quickSortTable (t : List chain) (beg e : Nat) : List chain :=
  qsAux (e - beg) t beg e

/-- Endpoint of the record at position `k` (the sort key `table[k].endpoint`). -/
def endAt (t : List chain) (k : Nat) : Nat := (t.getD k chainD).endpoint

/-- The segment `table[a..b)` of the array, used to state which region a
loop permutes. -/
def segL (t : List chain) (a b : Nat) : List chain := (t.drop a).take (b - a)

/-! ## Binary search (`searchTable`)

C source:
```
int searchTable(chain *table, int chainNum, chainEntry endpoint, chainEntry *index) {
  unsigned int beg = 0, end = chainNum - 1;
  while (beg < end) {
    long mid = (beg + end) / 2;
    if (endpoint < table[mid].endpoint) end = mid;
    else if (endpoint > table[mid].endpoint) beg = mid + 1;
    else {
      while (mid >= 0 && endpoint == table[mid--].endpoint);
      *index = (mid < 0)? 0 : mid + 1;
      return 1;
    }
  }
  return 0;
}
```
`some i` models returning 1 with `*index = i`; `none` models returning 0.
The backward walk decrements `mid` once more when it stops on an unequal
endpoint (post-decrement inside the condition), which `walkBack` mirrors. -/

/-- The backward walk `while (mid >= 0 && endpoint == table[mid--].endpoint);`
followed by `*index = (mid < 0)? 0 : mid + 1`, started at `mid`. -/
def walkBack (t : List chain) (r : Nat) : Nat → Nat
  | 0 => 0
  | m + 1 => if (t.getD (m + 1) chainD).endpoint = r then walkBack t r m else m + 1

/-- The binary-search `while` loop; each iteration strictly shrinks
`e - beg`, so `chainNum` steps always reach the exit. -/
def searchTableLoop (t : List chain) (r : Nat) : Nat → Nat → Nat → Option Nat
  | 0, _, _ => none
  | fuel + 1, beg, e =>
    if beg < e then
      let mid := (beg + e) / 2
      if r < (t.getD mid chainD).endpoint then searchTableLoop t r fuel beg mid
      else if (t.getD mid chainD).endpoint < r then searchTableLoop t r fuel (mid + 1) e
      else some (walkBack t r mid)
    else none

/-- Shallow embedding of `searchTable` (for `chainNum ≥ 1`, where the
`unsigned` initialisation `end = chainNum - 1` is the `Nat` subtraction). -/
def searchTable (t : List chain) (chainNum r : Nat) : Option Nat :=
  searchTableLoop t r chainNum 0 (chainNum - 1)

/-! ## Lookup enumeration (`searchHashInMemory`, lines 473-478)

C source:
```
if (searchTable(table, chainNum, r, &index))
  do {
    if (regenerateChain(table[index++].startpoint, chainLen, hashFunc,
                        hashLen, targetHash, seed))
      return 1;
  } while (table[index].endpoint == r);
```
The embedding records every table access: an access at a position `≥ chainNum`
is the event `oobRead` (the C code would dereference past the table there).
The loop advances `index` by one per iteration and stops at the latest when
the `oobRead` event fires at `chainNum`, so `chainNum + 1` steps suffice. -/

inductive EnumRes where
  | found : Nat → EnumRes
  | notFound : EnumRes
  | oobRead : Nat → EnumRes
  | stepsOut : EnumRes
deriving DecidableEq

/-- The `do { ... } while` enumeration; `regen s` abstracts the success of
`regenerateChain` on startpoint `s`. -/
def enumLoop (t : List chain) (chainNum r : Nat) (regen : Nat → Bool) : Nat → Nat → EnumRes
  | 0, _ => .stepsOut
  | fuel + 1, index =>
    if chainNum ≤ index then .oobRead index
    else if regen (t.getD index chainD).startpoint then .found index
    else if chainNum ≤ index + 1 then .oobRead (index + 1)
    else if (t.getD (index + 1) chainD).endpoint = r then enumLoop t chainNum r regen fuel (index + 1)
    else .notFound

/-- The fragment of `searchHashInMemory` for one reduced value `r`:
binary search followed by the enumeration of the run of equal endpoints. -/
def lookupEnumerate (t : List chain) (chainNum chainLen : Nat) (H : Nat → List Nat)
    (hashLen : Nat) (target : List Nat) (r : Nat) : EnumRes :=
  match searchTable t chainNum r with
  | none => .notFound
  | some index =>
    enumLoop t chainNum r
      (fun s => (regenerateChain s chainLen H hashLen target).isSome)
      (chainNum + 1) index

/-! ## Exhaustive searcher (`searchHashOnline`, `seedRecoveryWorker`)

C source for the range assignment (`range = MAX_SEED / threads`,
`start` accumulating `+= range` per worker):
```
opt[i].start = start;
opt[i].end = (i == threads - 1)? end : (start + range);
start += range;
```
so worker `i` receives the inclusive range
`[i*range, (i == threads-1) ? MAX_SEED : (i+1)*range]`. -/

def workerRange (threads : Nat) : Nat := MAX_SEED / threads

def workerStart (threads i : Nat) : Nat := i * workerRange threads

def workerEnd (threads i : Nat) : Nat :=
  if i = threads - 1 then MAX_SEED else workerStart threads i + workerRange threads

/-- Seed `s` is in worker `i`'s inclusive range. -/
def inWorkerRange (threads i s : Nat) : Prop :=
  workerStart threads i ≤ s ∧ s ≤ workerEnd threads i

instance (threads i s : Nat) : Decidable (inWorkerRange threads i s) :=
  inferInstanceAs (Decidable (_ ∧ _))

/-- Outcome of running the worker loop for a bounded number of iterations:
`running` means the loop has neither matched nor exited yet. -/
inductive WorkerOutcome where
  | exited : WorkerOutcome
  | foundSeed : Nat → WorkerOutcome
  | running : WorkerOutcome
deriving DecidableEq

/-- The loop of `seedRecoveryWorker`:
```
for (i = opt->start; i <= opt->end; i++) {
  if (!memcmp(opt->hash, opt->hashFunc(i, nh), opt->hashLen)) {
    *(opt->found) = 1; *(opt->seed) = i;
  }
  if (*(opt->found)) break;
}
```
`i` is a 32-bit unsigned counter, so `i++` wraps modulo `2^32`.  `found`
models the shared flag as seen by this worker (constant `false` when no
other worker ever sets it). -/
def seedRecoveryLoop (H : Nat → List Nat) (hashLen : Nat) (target : List Nat)
    (endv : Nat) : Nat → Nat → Bool → WorkerOutcome
  | 0, _, _ => .running
  | fuel + 1, i, found =>
    if i ≤ endv then
      if memcmpEq target (H i) hashLen then .foundSeed i
      else if found then .exited
      else seedRecoveryLoop H hashLen target endv fuel ((i + 1) % U32) found
    else .exited

/-! ## Name codec (`generateTableName`, `parseTablename`)

C sources:
```
char *generateTableName(char *hashName, unsigned int chainNum,
                        unsigned int chainLen, unsigned int index) {
  char buffer[512];
  snprintf(buffer, 512, "%s.%u.%u.%u.rt", hashName, chainNum, chainLen, index);
  return strdup(buffer);
}

int parseTablename(char *tablename, char *hashFuncName, unsigned int *chainNum,
                   unsigned int *chainLen) {
  char *copyTablename = strdup(tablename);
  char *tableBasename = basename(copyTablename);
  char *dotPos;
  unsigned int index;
  dotPos = strchr(tableBasename, '.');
  if (dotPos == NULL) return -1;
  *dotPos = ' ';
  sscanf(tableBasename, "%s %u.%u.%u.rt", hashFuncName, chainNum, chainLen, &index);
  *dotPos = '.';
  return 1;
}
```
The `sscanf` return value is ignored, so the function returns 1 whenever the
basename contains a `.`, regardless of how many fields matched.  Strings are
embedded as `List Char`.  `%u` is modelled on digit runs (none of the inputs
considered here carries a sign prefix), with the parsed value stored into a
32-bit `unsigned int`. -/

/-- C `isspace` characters, the separators the `sscanf` directives use. -/
def isSpaceCh (c : Char) : Bool :=
  decide (c = ' ' ∨ c = '\t' ∨ c = '\n' ∨ c = '\x0b' ∨ c = '\x0c' ∨ c = '\r')

/-- Decimal digit test. -/
def isDigitCh (c : Char) : Bool := decide (48 ≤ c.toNat ∧ c.toNat ≤ 57)

/-- The decimal digit characters. -/
def digitChar (n : Nat) : Char :=
  match n with
  | 0 => '0' | 1 => '1' | 2 => '2' | 3 => '3' | 4 => '4'
  | 5 => '5' | 6 => '6' | 7 => '7' | 8 => '8' | _ => '9'

/-- Decimal rendering of `n` (what `%u` prints), with an explicit recursion
bound (`n` itself always suffices since `n / 10 < n`). -/
def decReprAux : Nat → Nat → List Char
  | 0, _ => []
  | fuel + 1, n =>
    if n < 10 then [digitChar n]
    else decReprAux fuel (n / 10) ++ [digitChar (n % 10)]

/-- Decimal rendering of `n`. -/
def decRepr (n : Nat) : List Char := decReprAux (n + 1) n

/-- Shallow embedding of `generateTableName`: the formatted string
`"%s.%u.%u.%u.rt"`, truncated by `snprintf` to at most 511 characters. -/
def generateTableName (hashName : List Char) (chainNum chainLen index : Nat) : List Char :=
  (hashName ++ ('.' :: decRepr chainNum) ++ ('.' :: decRepr chainLen) ++
    ('.' :: decRepr index) ++ ['.', 'r', 't']).take 511

/-- POSIX `basename` for paths without a trailing slash: the suffix after
the last `/` (the whole string when there is no `/`). -/
def basenameL (s : List Char) : List Char :=
  (s.reverse.takeWhile (fun c => decide (c ≠ '/'))).reverse

/-- Position of the first `.` (what `strchr(s, '.')` points at). -/
def findFirstDot : List Char → Option Nat
  | [] => none
  | c :: rest => if c = '.' then some 0 else (findFirstDot rest).map (· + 1)

/-- Skip `isspace` characters (what a whitespace directive and the numeric
conversions do before consuming input). -/
def skipWs (s : List Char) : List Char := s.dropWhile isSpaceCh

/-- Value of a digit run (what `%u` accumulates). -/
def digitsVal (ds : List Char) : Nat :=
  ds.foldl (fun a c => a * 10 + (c.toNat - 48)) 0

/-- The `%s` conversion: skip whitespace, then take the maximal run of
non-whitespace characters; fails at end of input. -/
def scanStr (s : List Char) : Option (List Char × List Char) :=
  match skipWs s with
  | [] => none
  | c :: rest =>
    let tok := (c :: rest).takeWhile (fun x => !isSpaceCh x)
    some (tok, (c :: rest).drop tok.length)

/-- The `%u` conversion: skip whitespace, then read a maximal digit run;
fails when there is no digit.  The value is stored into an `unsigned int`. -/
def scanU (s : List Char) : Option (Nat × List Char) :=
  let s1 := skipWs s
  match s1.takeWhile isDigitCh with
  | [] => none
  | d :: ds => some (digitsVal (d :: ds) % U32, s1.drop (d :: ds).length)

/-- A non-whitespace literal character in the format: must match exactly. -/
def scanLit (c : Char) (s : List Char) : Option (List Char) :=
  match s with
  | [] => none
  | x :: rest => if x = c then some rest else none

/-- Model of `sscanf(s, "%s %u.%u.%u.rt", ...)`: returns the number of assigned
conversions and the assigned values (`none` = the corresponding C variable
was left untouched).  The trailing literal `.rt` directives cannot change
any assignment or the return value once the fourth `%u` has been assigned,
so they are not traced. -/
def sscanfTable (s : List Char) :
    Nat × Option (List Char) × Option Nat × Option Nat × Option Nat :=
  match scanStr s with
  | none => (0, none, none, none, none)
  | some (nm, s1) =>
    match scanU (skipWs s1) with
    | none => (1, some nm, none, none, none)
    | some (cn, s2) =>
      match scanLit '.' s2 with
      | none => (2, some nm, some cn, none, none)
      | some s3 =>
        match scanU s3 with
        | none => (2, some nm, some cn, none, none)
        | some (cl, s4) =>
          match scanLit '.' s4 with
          | none => (3, some nm, some cn, some cl, none)
          | some s5 =>
            match scanU s5 with
            | none => (3, some nm, some cn, some cl, none)
            | some (idx, _) => (4, some nm, some cn, some cl, some idx)

/-- Result of `parseTablename`: the C return value and the values stored
through the three output pointers (the parsed `index` is a local that is
never returned). -/
structure ParseResult where
  ret : Int
  hashFuncName : Option (List Char)
  chainNum : Option Nat
  chainLen : Option Nat
deriving DecidableEq

/-- Shallow embedding of `parseTablename`. -/
def parseTablename (tablename : List Char) : ParseResult :=
  let b := basenameL tablename
  match findFirstDot b with
  | none => ⟨-1, none, none, none⟩
  | some p =>
    let res := sscanfTable (b.set p ' ')
    ⟨1, res.2.1, res.2.2.1, res.2.2.2.1⟩

/-! ## Helper lemmas for the reduction claims -/

lemma xorWords_eq_fold (d : List Nat) (k : Nat) :
    ((List.range k).map (leWordAt d)).foldl (fun a w => a ^^^ w) 0 = xorWords d k := by
  induction k with
  | zero => rfl
  | succ n ih => rw [List.range_succ, List.map_append, List.foldl_append, ih]; rfl

lemma tailAdd_eq_fold (d : List Nat) (len k : Nat) :
    ((List.range k).map (fun i => signExtByte (d.getD (len - 1 - i) 0))).foldl (· + ·) 0 =
      tailAdd d len k := by
  induction k with
  | zero => rfl
  | succ n ih => rw [List.range_succ, List.map_append, List.foldl_append, ih]; rfl

lemma tailAdd_eq_plain (d : List Nat) (len k : Nat)
    (h : ∀ i, i < k → d.getD (len - 1 - i) 0 < 128) :
    tailAdd d len k = tailPlain d len k := by
  induction k with
  | zero => rfl
  | succ n ih =>
    unfold tailAdd tailPlain
    rw [ih (fun i hi => h i (Nat.lt_succ_of_lt hi))]
    unfold signExtByte
    rw [if_pos (h n (Nat.lt_succ_self n))]

/-! ## Claim C6 -/

/-- Claim C6 (corrected), counterexample: the claim computes the trailing
bytes at their plain unsigned value, but `reduce` reads them through a
signed `char`; at the digest `[0,0,0,0,0x80]` the two disagree
(`reduce` yields `0xFFFFFF80`, the claimed formula `0x80`). -/
theorem claimC6_counterexample :
    reduce [0, 0, 0, 0, 128] 5 0 ≠ reduceSpecClaimed [0, 0, 0, 0, 128] 5 0 := by decide

/-- Claim C6 as amended: `reduce(d, digest_len, round)` equals the XOR of
the first `⌊digest_len/4⌋` little-endian 32-bit words of `d`, plus each of
the `digest_len mod 4` trailing bytes read from position
`digest_len - 1 - i` added in sign-extended (a byte `b ≥ 0x80` contributes
`b - 256` modulo `2^32` rather than `b`), the whole XORed with `round`; and
in particular `reduce([0x01,0x02,0x03,0x04,0x05], 5, 0) = 0x04030206`. -/
theorem claimC6_amended :
    (∀ (d : List Nat) (len round : Nat), (∀ b ∈ d, b < 256) → 1 ≤ len → len ≤ 64 →
      len ≤ d.length → round < U32 →
      reduce d len round = reduceSpecAmended d len round) ∧
    reduce [1, 2, 3, 4, 5] 5 0 = 67305990 := by
  constructor
  · intro d len round _ _ _ _ _
    simp only [reduce, reduceSpecAmended]
    rw [xorWords_eq_fold, tailAdd_eq_fold]
  · decide

/-- Witness for `claimC6_amended` at a concrete digest. -/
theorem claimC6_amended_witness :
    reduce [1, 2, 3, 4, 5] 5 0 = reduceSpecAmended [1, 2, 3, 4, 5] 5 0 :=
  claimC6_amended.1 [1, 2, 3, 4, 5] 5 0 (by decide) (by decide) (by decide) (by decide)
    (by decide)

/-! ## Claim C10 -/

/-- Claim C10: in `reduce`, each trailing byte is added via a signed char:
for digests whose trailing bytes are all `< 0x80` the plain byte values are
added, while a trailing byte `b ≥ 0x80` contributes `b - 256` modulo `2^32`
(`signExtByte b = 2^32 - 256 + b`); at `[0,0,0,0,0x80]` the reduction is
`(2^32 - 256 + 0x80) % 2^32 = 0xFFFFFF80`, not `0x80`. -/
theorem claimC10_signed_tail :
    (∀ (d : List Nat) (len round : Nat),
      (∀ i, i < len % 4 → d.getD (len - 1 - i) 0 < 128) →
      reduce d len round =
        ((xorWords d (len / 4) + tailPlain d len (len % 4)) % U32) ^^^ round) ∧
    (∀ b, 128 ≤ b → b < 256 → signExtByte b = U32 - 256 + b) ∧
    reduce [0, 0, 0, 0, 128] 5 0 = (U32 - 256 + 128) % U32 := by
  refine ⟨?_, ?_, by decide⟩
  · intro d len round h
    simp only [reduce]
    rw [tailAdd_eq_plain d len (len % 4) h]
  · intro b h1 _
    simp only [signExtByte]
    rw [if_neg (by omega)]

/-- Witness for `claimC10_signed_tail` at a concrete digest. -/
theorem claimC10_witness :
    reduce [1, 2, 3, 4, 5] 5 7 =
      ((xorWords [1, 2, 3, 4, 5] (5 / 4) + tailPlain [1, 2, 3, 4, 5] 5 (5 % 4)) % U32) ^^^ 7 :=
  claimC10_signed_tail.1 [1, 2, 3, 4, 5] 5 7 (by decide)

/-! ## Claim C1 -/

/-- Claim C1 (code bug), evaluation at the failing input: on the sorted
table with endpoints `[1, 2, 2]` and searched value `r = 2`, `searchTable`
returns success with `*index = 0`, yet position 0 has endpoint `1 ≠ 2` and
the lowest position with endpoint 2 is 1 — the backward walk's
post-decrement steps one position below the first equal endpoint.  On the
single-element table `[5]` the value 5 occurs but the `beg < end` loop never
examines it and the search fails. -/
theorem claimC1_searchTable_eval :
    searchTable [⟨10, 1⟩, ⟨11, 2⟩, ⟨12, 2⟩] 3 2 = some 0 ∧
    (([⟨10, 1⟩, ⟨11, 2⟩, ⟨12, 2⟩] : List chain).getD 0 chainD).endpoint ≠ 2 ∧
    (([⟨10, 1⟩, ⟨11, 2⟩, ⟨12, 2⟩] : List chain).getD 1 chainD).endpoint = 2 ∧
    searchTable [⟨9, 5⟩] 1 5 = none := by decide

/-! ## Claim C4 -/

/-- Claim C4 (code bug), evaluation at the failing input: parsing
`"bad.rt"` returns success (1, not `BadTableName`) because the `sscanf`
return value is ignored; only the `%s` conversion matched, so the chain
parameters are left unassigned. -/
theorem claimC4_parse_bad_rt :
    parseTablename ['b', 'a', 'd', '.', 'r', 't'] = ⟨1, some ['b', 'a', 'd'], none, none⟩ := by
  decide

/-! ## Claim C9 -/

/-- Claim C9 (code bug), evaluation at the failing input: on the sorted
table with endpoints `[1, 2, 2]` (chainNum = 3), searched value `r = 2`, a
hash function that never matches the target (so every regeneration fails),
the enumeration `do { ... } while (table[index].endpoint == r)` dereferences
`table[3]`, one past the table, because the `while` condition has no
`index < chainNum` guard. -/
theorem claimC9_oob_read :
    lookupEnumerate [⟨0, 1⟩, ⟨1, 2⟩, ⟨2, 2⟩] 3 1 (fun _ => [0]) 1 [1] 2 = .oobRead 3 := by
  decide

/-! ## Claim C2 -/

/-- Claim C2 (corrected), counterexample: with `T = 2` workers the ranges
are `[0, 0x7fffffff]` and `[0x7fffffff, 0xffffffff]`; the seed `0x7fffffff`
belongs to both worker 0's and worker 1's range, so the ranges are not
pairwise disjoint. -/
theorem claimC2_overlap_counterexample :
    inWorkerRange 2 0 2147483647 ∧ inWorkerRange 2 1 2147483647 := by decide

/-- Claim C2 as amended: for every `T ≥ 1` the worker ranges cover the whole
seed space `[0, 2^32 - 1]` (no gaps), but they are not disjoint: for every
`T ≥ 2`, workers 0 and 1 both contain the boundary seed
`⌊(2^32-1)/T⌋` (and in general adjacent ranges share their boundary). -/
theorem claimC2_amended :
    (∀ T, 1 ≤ T → ∀ s, s ≤ MAX_SEED → ∃ i, i < T ∧ inWorkerRange T i s) ∧
    (∀ T, 2 ≤ T → inWorkerRange T 0 (workerRange T) ∧ inWorkerRange T 1 (workerRange T)) := by
  constructor
  · intro T hT s hs
    by_cases hR : workerRange T = 0
    · refine ⟨T - 1, by omega, ?_, ?_⟩
      · simp [workerStart, hR]
      · simp [workerEnd, hs]
    · have hRpos : 0 < workerRange T := Nat.pos_of_ne_zero hR
      by_cases hq : s / workerRange T < T - 1
      · refine ⟨s / workerRange T, by omega, ?_, ?_⟩
        · exact Nat.div_mul_le_self s (workerRange T)
        · have hne : s / workerRange T ≠ T - 1 := Nat.ne_of_lt hq
          rw [workerEnd, if_neg hne]
          have hdm := Nat.div_add_mod s (workerRange T)
          have hmod := Nat.mod_lt s hRpos
          have hcomm : s / workerRange T * workerRange T =
              workerRange T * (s / workerRange T) := Nat.mul_comm _ _
          rw [workerStart]
          omega
      · refine ⟨T - 1, by omega, ?_, ?_⟩
        · have h1 : (T - 1) * workerRange T ≤ s / workerRange T * workerRange T :=
            Nat.mul_le_mul_right _ (by omega)
          have h2 : s / workerRange T * workerRange T ≤ s :=
            Nat.div_mul_le_self s (workerRange T)
          exact le_trans h1 h2
        · rw [workerEnd, if_pos rfl]
          exact hs
  · intro T hT
    have h0 : (0 : Nat) ≠ T - 1 := by omega
    refine ⟨⟨?_, ?_⟩, ?_, ?_⟩
    · simp [workerStart]
    · rw [workerEnd, if_neg h0, workerStart]
      omega
    · simp [workerStart]
    · rw [workerEnd, workerStart]
      by_cases h1 : (1 : Nat) = T - 1
      · rw [if_pos h1]
        exact Nat.div_le_self MAX_SEED T
      · rw [if_neg h1]
        omega

/-- Witness for `claimC2_amended`: coverage instantiated at `T = 2`,
seed 5. -/
theorem claimC2_amended_witness : ∃ i, i < 2 ∧ inWorkerRange 2 i 5 :=
  claimC2_amended.1 2 (by decide) 5 (by decide)

/-! ## Claim C3 -/

/-- Claim C3 (code bug), evaluation at the failing input: the worker
assigned the range `[*, 0xffffffff]` with a target digest that no seed
hashes to (here the hash is constantly `[0]` and the target `[1]`) and a
shared `found` flag that is never set, never exits: the 32-bit counter
satisfies `i <= 0xffffffff` forever because `i++` wraps to 0, so after any
number of iterations the loop is still running. -/
theorem claimC3_worker_never_exits (fuel i : Nat) :
    seedRecoveryLoop (fun _ => [0]) 1 [1] MAX_SEED fuel (i % U32) false = .running := by
  induction fuel generalizing i with
  | zero => rfl
  | succ n ih =>
    have hle : i % U32 ≤ MAX_SEED := by
      have h1 : i % U32 < U32 := Nat.mod_lt i (by decide)
      have h2 : U32 = MAX_SEED + 1 := by decide
      omega
    show (if i % U32 ≤ MAX_SEED then
            if memcmpEq [1] [0] 1 then WorkerOutcome.foundSeed (i % U32)
            else if false then WorkerOutcome.exited
            else seedRecoveryLoop (fun _ => [0]) 1 [1] MAX_SEED n ((i % U32 + 1) % U32) false
          else WorkerOutcome.exited) = WorkerOutcome.running
    rw [if_pos hle]
    have hm : memcmpEq [1] [0] 1 = false := by decide
    rw [hm]
    show seedRecoveryLoop (fun _ => [0]) 1 [1] MAX_SEED n ((i % U32 + 1) % U32) false =
      WorkerOutcome.running
    have heq : (i % U32 + 1) % U32 = (i + 1) % U32 := by
      conv_rhs => rw [Nat.add_mod]
      norm_num
    rw [heq]
    exact ih (i + 1)

/-! ## Claim C8 counterexample -/

/-- Claim C8 (corrected), counterexample: the hash name `"a b"` contains no
`.` byte, yet decoding the encoded filename `"a b.1.2.3.rt"` does not
recover `(name, chain_num, chain_len)`: the space-injection `sscanf` trick
stops the `%s` conversion at the space, yielding name `"a"` and no numeric
fields. -/
theorem claimC8_counterexample :
    parseTablename (generateTableName ['a', ' ', 'b'] 1 2 3) ≠
      ⟨1, some ['a', ' ', 'b'], some 1, some 2⟩ := by decide

/-! ## Claim C7 -/

/-- Loop invariant of `regenerateChain`: started at round `i` on the chain
value `s_i`, the loop returns `none` exactly when no step in `[i, i+rem)`
matches, and returns `some s_k` for the first matching step `k`. -/
lemma regenAux_spec (H : Nat → List Nat) (hlen : Nat) (target : List Nat) (start rem : Nat) :
    ∀ i,
      (regenAux H hlen target rem i (sChain H hlen start i) = none ↔
        ∀ k, i ≤ k → k < i + rem → memcmpEq (H (sChain H hlen start k)) target hlen = false) ∧
      (∀ k, i ≤ k → k < i + rem →
        memcmpEq (H (sChain H hlen start k)) target hlen = true →
        (∀ j, i ≤ j → j < k → memcmpEq (H (sChain H hlen start j)) target hlen = false) →
        regenAux H hlen target rem i (sChain H hlen start i) = some (sChain H hlen start k)) := by
  induction rem with
  | zero =>
    intro i
    constructor
    · constructor
      · intro _ k hik hk
        omega
      · intro _
        rfl
    · intro k hik hk
      omega
  | succ n ih =>
    intro i
    have hstep : regenAux H hlen target (n + 1) i (sChain H hlen start i) =
        if memcmpEq (H (sChain H hlen start i)) target hlen then some (sChain H hlen start i)
        else regenAux H hlen target n (i + 1) (sChain H hlen start (i + 1)) := rfl
    by_cases hm : memcmpEq (H (sChain H hlen start i)) target hlen = true
    · rw [hstep, if_pos hm]
      constructor
      · constructor
        · intro h
          exact absurd h (by simp)
        · intro hall
          have := hall i (le_refl i) (by omega)
          rw [hm] at this
          exact absurd this (by simp)
      · intro k hik hk hmk hmin
        rcases Nat.eq_or_lt_of_le hik with heq | hlt
        · rw [heq]
        · have := hmin i (le_refl i) hlt
          rw [hm] at this
          exact absurd this (by simp)
    · have hmf : memcmpEq (H (sChain H hlen start i)) target hlen = false := by
        cases hb : memcmpEq (H (sChain H hlen start i)) target hlen
        · rfl
        · exact absurd hb hm
      rw [hstep, if_neg hm]
      obtain ⟨ihl, ihr⟩ := ih (i + 1)
      constructor
      · constructor
        · intro h k hik hk
          rcases Nat.eq_or_lt_of_le hik with heq | hlt
          · rw [← heq]
            exact hmf
          · exact ihl.mp h k hlt (by omega)
        · intro hall
          exact ihl.mpr (fun k hk1 hk2 => hall k (by omega) (by omega))
      · intro k hik hk hmk hmin
        have hki : i < k := by
          rcases Nat.eq_or_lt_of_le hik with heq | hlt
          · rw [← heq] at hmk
            rw [hmf] at hmk
            exact absurd hmk (by simp)
          · exact hlt
        exact ihr k hki (by omega) hmk (fun j hj1 hj2 => hmin j (by omega) hj2)

/-- Claim C7: `regenerateChain(start, L, H, hlen, target)` succeeds with
seed `s_k` exactly when some step `k ∈ [0, L)` satisfies `H(s_k) = target`
(the digest comparison over `hlen` bytes happening before the reduction, so
the first matching `s_k` is returned); when no step matches the chain is a
false positive and `none` (C return 0, no seed) results.  `L < 2^31` keeps
the C `int` loop counter within defined behaviour. -/
theorem claimC7_regenerateChain (start L : Nat) (H : Nat → List Nat) (hlen : Nat)
    (target : List Nat) (hL : L < 2 ^ 31) :
    ((regenerateChain start L H hlen target).isSome ↔
      ∃ k, k < L ∧ memcmpEq (H (sChain H hlen start k)) target hlen = true) ∧
    (∀ k, k < L → memcmpEq (H (sChain H hlen start k)) target hlen = true →
      (∀ j, j < k → memcmpEq (H (sChain H hlen start j)) target hlen = false) →
      regenerateChain start L H hlen target = some (sChain H hlen start k)) ∧
    ((∀ k, k < L → memcmpEq (H (sChain H hlen start k)) target hlen = false) →
      regenerateChain start L H hlen target = none) := by
  obtain ⟨hl, hr⟩ := regenAux_spec H hlen target start L 0
  have hre : regenerateChain start L H hlen target =
      regenAux H hlen target L 0 (sChain H hlen start 0) := rfl
  refine ⟨?_, ?_, ?_⟩
  · rw [hre, Option.isSome_iff_ne_none]
    constructor
    · intro hne
      by_contra hnex
      push_neg at hnex
      apply hne
      apply hl.mpr
      intro k _ hk
      have := hnex k (by omega)
      cases hb : memcmpEq (H (sChain H hlen start k)) target hlen
      · rfl
      · exact absurd hb this
    · rintro ⟨k, hk, hmk⟩ hnone
      have := hl.mp hnone k (Nat.zero_le k) (by omega)
      rw [hmk] at this
      exact absurd this (by simp)
  · intro k hk hmk hmin
    rw [hre]
    exact hr k (Nat.zero_le k) (by omega) hmk (fun j _ hj => hmin j hj)
  · intro hall
    rw [hre]
    exact hl.mpr (fun k _ hk => hall k (by omega))

/-- Witness for `claimC7_regenerateChain`: with `H s = [s]`, target `[2]`,
start 2 and chain length 1, step 0 matches and the start seed is
returned. -/
theorem claimC7_witness :
    regenerateChain 2 1 (fun s => [s]) 1 [2] = some (sChain (fun s => [s]) 1 2 0) :=
  (claimC7_regenerateChain 2 1 (fun s => [s]) 1 [2] (by norm_num)).2.1 0 (by decide)
    (by decide) (fun j hj => absurd hj (Nat.not_lt_zero j))

/-! ## Claim C5: quicksort.  List bookkeeping lemmas first. -/

lemma getD_set_ne (t : List chain) (i j : Nat) (a : chain) (h : j ≠ i) :
    (t.set i a).getD j chainD = t.getD j chainD := by
  simp [List.getD_eq_getElem?_getD, List.getElem?_set_ne (fun hij => h hij.symm)]

lemma getD_set_self (t : List chain) (i : Nat) (a : chain) (h : i < t.length) :
    (t.set i a).getD i chainD = a := by
  simp [List.getD_eq_getElem?_getD, List.getElem?_set_self, h]

lemma length_swapChains (t : List chain) (i j : Nat) :
    (swapChains t i j).length = t.length := by
  simp [swapChains]

lemma getD_swapChains (t : List chain) (i j k : Nat) (hi : i < t.length) (hj : j < t.length) :
    (swapChains t i j).getD k chainD =
      if k = j then t.getD i chainD
      else if k = i then t.getD j chainD
      else t.getD k chainD := by
  unfold swapChains
  by_cases hkj : k = j
  · rw [if_pos hkj, hkj, getD_set_self _ _ _ (by simpa using hj)]
  · rw [if_neg hkj, getD_set_ne _ _ _ _ hkj]
    by_cases hki : k = i
    · rw [if_pos hki, hki, getD_set_self _ _ _ hi]
    · rw [if_neg hki, getD_set_ne _ _ _ _ hki]

lemma segL_nil (t : List chain) (a b : Nat) (h : b ≤ a) : segL t a b = [] := by
  unfold segL
  rw [Nat.sub_eq_zero_of_le h, List.take_zero]

lemma segL_cons (t : List chain) (a b : Nat) (hab : a < b) (ha : a < t.length) :
    segL t a b = t.getD a chainD :: segL t (a + 1) b := by
  unfold segL
  rw [List.drop_eq_getElem_cons ha, List.getD_eq_getElem t chainD ha]
  have h : b - a = (b - (a + 1)) + 1 := by omega
  rw [h, List.take_succ_cons]

lemma segL_split (t : List chain) (a b c : Nat) (h1 : a ≤ b) (h2 : b ≤ c) :
    segL t a c = segL t a b ++ segL t b c := by
  unfold segL
  have h : c - a = (b - a) + (c - b) := by omega
  rw [h, List.take_add]
  congr 2
  rw [List.drop_drop]
  congr 1
  omega

lemma length_segL (t : List chain) (a b : Nat) (hab : a ≤ b) (hb : b ≤ t.length) :
    (segL t a b).length = b - a := by
  unfold segL
  rw [List.length_take, List.length_drop]
  omega

lemma segL_congr (t u : List chain) (a b : Nat) (hb : b ≤ t.length) (hlen : u.length = t.length)
    (h : ∀ k, a ≤ k → k < b → u.getD k chainD = t.getD k chainD) :
    segL u a b = segL t a b := by
  have key : ∀ n a, b - a = n →
      (∀ k, a ≤ k → k < b → u.getD k chainD = t.getD k chainD) →
      segL u a b = segL t a b := by
    intro n
    induction n with
    | zero =>
      intro a hba _
      rw [segL_nil t a b (by omega), segL_nil u a b (by omega)]
    | succ n ih =>
      intro a hba h
      have hab : a < b := by omega
      have hat : a < t.length := by omega
      have hau : a < u.length := by omega
      rw [segL_cons t a b hab hat, segL_cons u a b hab hau, h a (le_refl a) hab,
        ih (a + 1) (by omega) (fun k hk1 hk2 => h k (by omega) hk2)]
  exact key (b - a) a rfl h

lemma getD_mem_segL (t : List chain) (a b k : Nat) (h1 : a ≤ k) (h2 : k < b)
    (hb : b ≤ t.length) : t.getD k chainD ∈ segL t a b := by
  have key : ∀ n a, b - a = n → a ≤ k → t.getD k chainD ∈ segL t a b := by
    intro n
    induction n with
    | zero =>
      intro a hba h1
      omega
    | succ n ih =>
      intro a hba h1
      have hab : a < b := by omega
      rw [segL_cons t a b hab (by omega)]
      rcases Nat.eq_or_lt_of_le h1 with heq | hlt
      · rw [← heq]
        exact List.mem_cons_self _ _
      · exact List.mem_cons_of_mem _ (ih (a + 1) (by omega) hlt)
  exact key (b - a) a rfl h1

lemma segL_forall (t : List chain) (a b : Nat) (P : chain → Prop)
    (h : ∀ k, a ≤ k → k < b → P (t.getD k chainD)) :
    ∀ x ∈ segL t a b, P x := by
  have key : ∀ n a, b - a = n →
      (∀ k, a ≤ k → k < b → P (t.getD k chainD)) → ∀ x ∈ segL t a b, P x := by
    intro n
    induction n with
    | zero =>
      intro a hba _
      rw [segL_nil t a b (by omega)]
      intro x hx
      exact absurd hx (List.not_mem_nil x)
    | succ n ih =>
      intro a hba h
      have hab : a < b := by omega
      by_cases hat : a < t.length
      · rw [segL_cons t a b hab hat]
        intro x hx
        rcases List.mem_cons.mp hx with heq | hmem
        · rw [heq]
          exact h a (le_refl a) hab
        · exact ih (a + 1) (by omega) (fun k hk1 hk2 => h k (by omega) hk2) x hmem
      · intro x hx
        unfold segL at hx
        rw [List.drop_eq_nil_of_le (by omega)] at hx
        simp at hx
  exact key (b - a) a rfl h

lemma swapChains_comm_getD (t : List chain) (i j k : Nat) (hi : i < t.length)
    (hj : j < t.length) :
    (swapChains t i j).getD k chainD = (swapChains t j i).getD k chainD := by
  rw [getD_swapChains t i j k hi hj, getD_swapChains t j i k hj hi]
  by_cases hkj : k = j <;> by_cases hki : k = i
  · subst hkj
    subst hki
    simp
  · subst hkj
    simp [hki]
  · subst hki
    simp [hkj]
  · simp [hkj, hki]

lemma perm_exchange (x y : chain) (B C : List chain) :
    List.Perm (x :: (B ++ y :: C)) (y :: (B ++ x :: C)) := by
  have h1 : List.Perm (x :: (B ++ y :: C)) (x :: y :: (B ++ C)) :=
    List.Perm.cons x List.perm_middle
  have h2 : List.Perm (x :: y :: (B ++ C)) (y :: x :: (B ++ C)) :=
    List.Perm.swap y x (B ++ C)
  have h3 : List.Perm (y :: x :: (B ++ C)) (y :: (B ++ x :: C)) :=
    List.Perm.cons y List.perm_middle.symm
  exact (h1.trans h2).trans h3

lemma segL_swap_perm_le (t : List chain) (a b i j : Nat) (hai : a ≤ i) (hij : i ≤ j)
    (hjb : j < b) (hb : b ≤ t.length) :
    List.Perm (segL (swapChains t i j) a b) (segL t a b) := by
  have hlen : (swapChains t i j).length = t.length := length_swapChains t i j
  have hi : i < t.length := by omega
  have hj : j < t.length := by omega
  rcases Nat.eq_or_lt_of_le hij with heq | hlt
  · have he : segL (swapChains t i j) a b = segL t a b := by
      apply segL_congr t _ a b hb hlen
      intro k hk1 hk2
      rw [getD_swapChains t i j k hi hj, ← heq]
      by_cases hki : k = i <;> simp [hki]
    rw [he]
  · -- i < j : split the segment around positions i and j
    have e1 : segL (swapChains t i j) a b =
        segL (swapChains t i j) a i ++ (swapChains t i j).getD i chainD ::
          (segL (swapChains t i j) (i + 1) j ++ (swapChains t i j).getD j chainD ::
            segL (swapChains t i j) (j + 1) b) := by
      rw [segL_split _ a i b hai (by omega), segL_cons _ i b (by omega) (by omega),
        segL_split _ (i + 1) j b (by omega) (by omega),
        segL_cons _ j b (by omega) (by omega)]
    have e2 : segL t a b =
        segL t a i ++ t.getD i chainD ::
          (segL t (i + 1) j ++ t.getD j chainD :: segL t (j + 1) b) := by
      rw [segL_split t a i b hai (by omega), segL_cons t i b (by omega) hi,
        segL_split t (i + 1) j b (by omega) (by omega),
        segL_cons t j b (by omega) hj]
    have g1 : segL (swapChains t i j) a i = segL t a i := by
      apply segL_congr t _ a i (by omega) hlen
      intro k hk1 hk2
      rw [getD_swapChains t i j k hi hj, if_neg (by omega), if_neg (by omega)]
    have g2 : segL (swapChains t i j) (i + 1) j = segL t (i + 1) j := by
      apply segL_congr t _ (i + 1) j (by omega) hlen
      intro k hk1 hk2
      rw [getD_swapChains t i j k hi hj, if_neg (by omega), if_neg (by omega)]
    have g3 : segL (swapChains t i j) (j + 1) b = segL t (j + 1) b := by
      apply segL_congr t _ (j + 1) b hb hlen
      intro k hk1 hk2
      rw [getD_swapChains t i j k hi hj, if_neg (by omega), if_neg (by omega)]
    have g4 : (swapChains t i j).getD i chainD = t.getD j chainD := by
      rw [getD_swapChains t i j i hi hj, if_neg (by omega), if_pos rfl]
    have g5 : (swapChains t i j).getD j chainD = t.getD i chainD := by
      rw [getD_swapChains t i j j hi hj, if_pos rfl]
    rw [e1, e2, g1, g2, g3, g4, g5]
    exact List.Perm.append_left _ (perm_exchange _ _ _ _)

lemma segL_swap_perm (t : List chain) (a b i j : Nat) (hai : a ≤ i) (hib : i < b)
    (haj : a ≤ j) (hjb : j < b) (hb : b ≤ t.length) :
    List.Perm (segL (swapChains t i j) a b) (segL t a b) := by
  have hi : i < t.length := by omega
  have hj : j < t.length := by omega
  rcases le_or_lt i j with hij | hji
  · exact segL_swap_perm_le t a b i j hai hij hjb hb
  · have he : segL (swapChains t i j) a b = segL (swapChains t j i) a b := by
      apply segL_congr (swapChains t j i) (swapChains t i j) a b
        (by rw [length_swapChains]; exact hb) (by rw [length_swapChains, length_swapChains])
      intro k _ _
      exact swapChains_comm_getD t i j k hi hj
    rw [he]
    exact segL_swap_perm_le t a b j i haj (le_of_lt hji) hib hb

/-- Invariant of the partition loop of `quickSortTable`: started on `[l, r)`
with enough steps, it stops with `l = r =: m`, touches only `[l, r)` (which
it permutes), leaves `[l, m)` with endpoints `≤ piv` and `[m, r)` with
endpoints `> piv`. -/
lemma partLoop_spec (piv : Nat) : ∀ (fuel : Nat) (t : List chain) (l r : Nat),
    l ≤ r → r ≤ t.length → r - l ≤ fuel →
    ∃ u m, partLoop piv fuel t l r = (u, m, m) ∧
      u.length = t.length ∧ l ≤ m ∧ m ≤ r ∧
      (∀ k, k < l ∨ r ≤ k → u.getD k chainD = t.getD k chainD) ∧
      List.Perm (segL u l r) (segL t l r) ∧
      (∀ k, l ≤ k → k < m → endAt u k ≤ piv) ∧
      (∀ k, m ≤ k → k < r → piv < endAt u k) := by
  intro fuel
  induction fuel with
  | zero =>
    intro t l r hlr hrt hf
    have hlr' : l = r := by omega
    subst hlr'
    exact ⟨t, l, rfl, rfl, le_refl l, le_refl l, fun k _ => rfl, List.Perm.refl _,
      fun k h1 h2 => by omega, fun k h1 h2 => by omega⟩
  | succ n ih =>
    intro t l r hlr hrt hf
    have hstep : partLoop piv (n + 1) t l r =
        if l < r then
          if (t.getD l chainD).endpoint ≤ piv then partLoop piv n t (l + 1) r
          else partLoop piv n (swapChains t l (r - 1)) l (r - 1)
        else (t, l, r) := rfl
    by_cases hlt : l < r
    · have hllen : l < t.length := by omega
      have hr1len : r - 1 < t.length := by omega
      by_cases hc : (t.getD l chainD).endpoint ≤ piv
      · obtain ⟨u, m, heq, hulen, hlm, hmr, hunch, hperm, hleft, hright⟩ :=
          ih t (l + 1) r hlt hrt (by omega)
        refine ⟨u, m, ?_, hulen, by omega, hmr, ?_, ?_, ?_, hright⟩
        · rw [hstep, if_pos hlt, if_pos hc]
          exact heq
        · intro k hk
          apply hunch
          omega
        · have hcu : segL u l r = u.getD l chainD :: segL u (l + 1) r :=
            segL_cons u l r hlt (by omega)
          have hct : segL t l r = t.getD l chainD :: segL t (l + 1) r :=
            segL_cons t l r hlt hllen
          have hul : u.getD l chainD = t.getD l chainD := hunch l (by omega)
          rw [hcu, hct, hul]
          exact List.Perm.cons _ hperm
        · intro k h1 h2
          rcases Nat.eq_or_lt_of_le h1 with heqk | hltk
          · have hul : u.getD l chainD = t.getD l chainD := hunch l (by omega)
            rw [← heqk]
            unfold endAt
            rw [hul]
            exact hc
          · exact hleft k hltk h2
      · obtain ⟨u, m, heq, hulen, hlm, hmr, hunch, hperm, hleft, hright⟩ :=
          ih (swapChains t l (r - 1)) l (r - 1) (by omega)
            (by rw [length_swapChains]; omega) (by omega)
        have hswlen : (swapChains t l (r - 1)).length = t.length := length_swapChains t l (r - 1)
        have hswk : ∀ k, k ≠ l → k ≠ r - 1 →
            (swapChains t l (r - 1)).getD k chainD = t.getD k chainD := by
          intro k hk1 hk2
          rw [getD_swapChains t l (r - 1) k hllen hr1len, if_neg hk2, if_neg hk1]
        have hswr1 : (swapChains t l (r - 1)).getD (r - 1) chainD = t.getD l chainD := by
          rw [getD_swapChains t l (r - 1) (r - 1) hllen hr1len, if_pos rfl]
        refine ⟨u, m, ?_, by omega, hlm, by omega, ?_, ?_, hleft, ?_⟩
        · rw [hstep, if_pos hlt, if_neg hc]
          exact heq
        · intro k hk
          have h1 : u.getD k chainD = (swapChains t l (r - 1)).getD k chainD := by
            apply hunch
            omega
          rw [h1]
          apply hswk k (by omega) (by omega)
        · have hur1 : u.getD (r - 1) chainD = t.getD l chainD := by
            have h1 : u.getD (r - 1) chainD = (swapChains t l (r - 1)).getD (r - 1) chainD := by
              apply hunch
              omega
            rw [h1, hswr1]
          have hr1p : r - 1 + 1 = r := by omega
          have hs1 : segL u l r = segL u l (r - 1) ++ [t.getD l chainD] := by
            rw [segL_split u l (r - 1) r (by omega) (by omega),
              segL_cons u (r - 1) r (by omega) (by omega), hr1p, segL_nil u r r (le_refl r),
              hur1]
          have hs2 : segL (swapChains t l (r - 1)) l r =
              segL (swapChains t l (r - 1)) l (r - 1) ++ [t.getD l chainD] := by
            rw [segL_split _ l (r - 1) r (by omega) (by omega),
              segL_cons _ (r - 1) r (by omega) (by omega), hr1p, segL_nil _ r r (le_refl r),
              hswr1]
          have hp1 : List.Perm (segL u l r) (segL (swapChains t l (r - 1)) l r) := by
            rw [hs1, hs2]
            exact List.Perm.append hperm (List.Perm.refl _)
          have hp2 : List.Perm (segL (swapChains t l (r - 1)) l r) (segL t l r) :=
            segL_swap_perm t l r l (r - 1) (le_refl l) hlt (by omega) (by omega) hrt
          exact hp1.trans hp2
        · intro k h1 h2
          by_cases hk : k < r - 1
          · exact hright k h1 hk
          · have hk1 : k = r - 1 := by omega
            have h1' : u.getD k chainD = (swapChains t l (r - 1)).getD k chainD := by
              apply hunch
              omega
            unfold endAt
            rw [h1', hk1, hswr1]
            omega
    · have hlr' : l = r := by omega
      subst hlr'
      refine ⟨t, l, ?_, rfl, le_refl l, le_refl l, fun k _ => rfl, List.Perm.refl _,
        fun k h1 h2 => by omega, fun k h1 h2 => by omega⟩
      rw [hstep, if_neg hlt]

/-- Invariant of the `quickSortTable` recursion: with enough depth it
permutes the segment `[beg, e)`, fixes everything outside it, and leaves the
segment sorted by endpoint. -/
lemma qsAux_spec : ∀ (fuel : Nat) (t : List chain) (beg e : Nat),
    e ≤ t.length → e - beg ≤ fuel →
    (qsAux fuel t beg e).length = t.length ∧
    (∀ k, k < beg ∨ e ≤ k → (qsAux fuel t beg e).getD k chainD = t.getD k chainD) ∧
    List.Perm (segL (qsAux fuel t beg e) beg e) (segL t beg e) ∧
    (∀ i j, beg ≤ i → i ≤ j → j < e →
      endAt (qsAux fuel t beg e) i ≤ endAt (qsAux fuel t beg e) j) := by
  intro fuel
  induction fuel with
  | zero =>
    intro t beg e he hf
    refine ⟨rfl, fun k _ => rfl, List.Perm.refl _, ?_⟩
    intro i j h1 h2 h3
    omega
  | succ n ih =>
    intro t beg e he hf
    by_cases hbe : beg + 1 < e
    · obtain ⟨u, m, heq, hulen, hlm, hmr, hunch, hperm, hleft, hright⟩ :=
        partLoop_spec ((t.getD beg chainD).endpoint) (e - (beg + 1)) t (beg + 1) e
          (by omega) he (le_refl _)
      have hstep : qsAux (n + 1) t beg e =
          if beg + 1 < e then
            qsAux n (qsAux n
              (swapChains
                (partLoop ((t.getD beg chainD).endpoint) (e - (beg + 1)) t (beg + 1) e).1
                ((partLoop ((t.getD beg chainD).endpoint) (e - (beg + 1)) t (beg + 1) e).2.1 - 1)
                beg)
              beg
              ((partLoop ((t.getD beg chainD).endpoint) (e - (beg + 1)) t (beg + 1) e).2.1 - 1))
            (partLoop ((t.getD beg chainD).endpoint) (e - (beg + 1)) t (beg + 1) e).2.2 e
          else t := rfl
      have hq : qsAux (n + 1) t beg e =
          qsAux n (qsAux n (swapChains u (m - 1) beg) beg (m - 1)) m e := by
        rw [hstep, if_pos hbe, heq]
      have hblen : beg < t.length := by omega
      have hm1len : m - 1 < t.length := by omega
      have hm1lenu : m - 1 < u.length := by omega
      have hbeglenu : beg < u.length := by omega
      have ht2len : (swapChains u (m - 1) beg).length = t.length := by
        rw [length_swapChains]
        exact hulen
      have hub : u.getD beg chainD = t.getD beg chainD := hunch beg (by omega)
      have ht2k : ∀ k, k ≠ beg → k ≠ m - 1 →
          (swapChains u (m - 1) beg).getD k chainD = u.getD k chainD := by
        intro k hk1 hk2
        rw [getD_swapChains u (m - 1) beg k hm1lenu hbeglenu, if_neg hk1, if_neg hk2]
      have ht2m1 : (swapChains u (m - 1) beg).getD (m - 1) chainD = t.getD beg chainD := by
        rw [getD_swapChains u (m - 1) beg (m - 1) hm1lenu hbeglenu]
        by_cases hmb : m - 1 = beg
        · rw [if_pos hmb, hmb, hub]
        · rw [if_neg hmb, if_pos rfl, hub]
      obtain ⟨ih1len, ih1unch, ih1perm, ih1sort⟩ :=
        ih (swapChains u (m - 1) beg) beg (m - 1) (by omega) (by omega)
      have hw1len : (qsAux n (swapChains u (m - 1) beg) beg (m - 1)).length = t.length := by
        rw [ih1len, ht2len]
      obtain ⟨ih2len, ih2unch, ih2perm, ih2sort⟩ :=
        ih (qsAux n (swapChains u (m - 1) beg) beg (m - 1)) m e (by omega) (by omega)
      have hw1m1 : (qsAux n (swapChains u (m - 1) beg) beg (m - 1)).getD (m - 1) chainD =
          t.getD beg chainD := by
        rw [ih1unch (m - 1) (by omega), ht2m1]
      have hw2len : (qsAux n (qsAux n (swapChains u (m - 1) beg) beg (m - 1)) m e).length =
          t.length := by
        rw [ih2len, hw1len]
      refine ⟨?_, ?_, ?_, ?_⟩
      · rw [hq]
        exact hw2len
      · intro k hk
        rw [hq, ih2unch k (by omega), ih1unch k (by omega), ht2k k (by omega) (by omega),
          hunch k (by omega)]
      · rw [hq]
        -- assemble the permutation of the whole segment [beg, e)
        have hmm1 : m - 1 + 1 = m := by omega
        have p3a : segL (qsAux n (qsAux n (swapChains u (m - 1) beg) beg (m - 1)) m e) beg e =
            segL (qsAux n (qsAux n (swapChains u (m - 1) beg) beg (m - 1)) m e) beg m ++
            segL (qsAux n (qsAux n (swapChains u (m - 1) beg) beg (m - 1)) m e) m e :=
          segL_split _ beg m e (by omega) (by omega)
        have p3b : segL (qsAux n (qsAux n (swapChains u (m - 1) beg) beg (m - 1)) m e) beg m =
            segL (qsAux n (swapChains u (m - 1) beg) beg (m - 1)) beg m := by
          apply segL_congr _ _ beg m (by omega) (by rw [ih2len])
          intro k hk1 hk2
          exact ih2unch k (by omega)
        have p3c : segL (qsAux n (swapChains u (m - 1) beg) beg (m - 1)) beg m =
            segL (qsAux n (swapChains u (m - 1) beg) beg (m - 1)) beg (m - 1) ++
            [t.getD beg chainD] := by
          rw [segL_split _ beg (m - 1) m (by omega) (by omega),
            segL_cons _ (m - 1) m (by omega) (by omega), hmm1, segL_nil _ m m (le_refl m),
            hw1m1]
        have p3g : segL (swapChains u (m - 1) beg) beg m =
            segL (swapChains u (m - 1) beg) beg (m - 1) ++ [t.getD beg chainD] := by
          rw [segL_split _ beg (m - 1) m (by omega) (by omega),
            segL_cons _ (m - 1) m (by omega) (by omega), hmm1, segL_nil _ m m (le_refl m),
            ht2m1]
        have p3bc : List.Perm
            (segL (qsAux n (qsAux n (swapChains u (m - 1) beg) beg (m - 1)) m e) beg m)
            (segL (swapChains u (m - 1) beg) beg m) := by
          rw [p3b, p3c, p3g]
          exact List.Perm.append ih1perm (List.Perm.refl _)
        have p3f : List.Perm (segL (swapChains u (m - 1) beg) beg m) (segL u beg m) :=
          segL_swap_perm u beg m (m - 1) beg (by omega) (by omega) (le_refl beg) (by omega)
            (by omega)
        have p3h1 : segL (qsAux n (swapChains u (m - 1) beg) beg (m - 1)) m e =
            segL (swapChains u (m - 1) beg) m e := by
          apply segL_congr _ _ m e (by omega) (by rw [ih1len])
          intro k hk1 hk2
          exact ih1unch k (by omega)
        have p3h2 : segL (swapChains u (m - 1) beg) m e = segL u m e := by
          apply segL_congr u _ m e (by omega) (by rw [ht2len, hulen])
          intro k hk1 hk2
          exact ht2k k (by omega) (by omega)
        have p3h : List.Perm
            (segL (qsAux n (qsAux n (swapChains u (m - 1) beg) beg (m - 1)) m e) m e)
            (segL u m e) := by
          rw [← p3h2, ← p3h1]
          exact ih2perm
        have p3i : segL u beg m ++ segL u m e = segL u beg e :=
          (segL_split u beg m e (by omega) (by omega)).symm
        have p3j : List.Perm (segL u beg e) (segL t beg e) := by
          rw [segL_cons u beg e (by omega) (by omega), segL_cons t beg e (by omega) hblen,
            hub]
          exact List.Perm.cons _ hperm
        rw [p3a]
        exact (((List.Perm.append p3bc p3h).trans
          (List.Perm.append p3f (List.Perm.refl _))).trans (p3i ▸ List.Perm.refl _)).trans p3j
      · rw [hq]
        -- sortedness of the assembled segment
        have hA : ∀ k, beg ≤ k → k < m - 1 →
            endAt (qsAux n (qsAux n (swapChains u (m - 1) beg) beg (m - 1)) m e) k ≤
              (t.getD beg chainD).endpoint := by
          intro k hk1 hk2
          have hall : ∀ x ∈ segL (swapChains u (m - 1) beg) beg (m - 1),
              x.endpoint ≤ (t.getD beg chainD).endpoint := by
            apply segL_forall
            intro k' hk1' hk2'
            by_cases hkb : k' = beg
            · have : (swapChains u (m - 1) beg).getD k' chainD = u.getD (m - 1) chainD := by
                rw [getD_swapChains u (m - 1) beg k' hm1lenu hbeglenu, if_pos hkb]
              rw [this]
              exact hleft (m - 1) (by omega) (by omega)
            · rw [ht2k k' hkb (by omega)]
              exact hleft k' (by omega) (by omega)
          have hmem : (qsAux n (swapChains u (m - 1) beg) beg (m - 1)).getD k chainD ∈
              segL (swapChains u (m - 1) beg) beg (m - 1) := by
            apply ih1perm.subset
            apply getD_mem_segL _ beg (m - 1) k hk1 hk2
            omega
          unfold endAt
          rw [ih2unch k (by omega)]
          exact hall _ hmem
        have hB : endAt (qsAux n (qsAux n (swapChains u (m - 1) beg) beg (m - 1)) m e) (m - 1) =
            (t.getD beg chainD).endpoint := by
          unfold endAt
          rw [ih2unch (m - 1) (by omega), hw1m1]
        have hC : ∀ k, m ≤ k → k < e →
            (t.getD beg chainD).endpoint <
              endAt (qsAux n (qsAux n (swapChains u (m - 1) beg) beg (m - 1)) m e) k := by
          intro k hk1 hk2
          have hall : ∀ x ∈ segL u m e, (t.getD beg chainD).endpoint < x.endpoint := by
            apply segL_forall
            intro k' hk1' hk2'
            exact hright k' hk1' hk2'
          have hmem : (qsAux n (qsAux n (swapChains u (m - 1) beg) beg (m - 1)) m e).getD k
              chainD ∈ segL u m e := by
            have p3h1 : segL (qsAux n (swapChains u (m - 1) beg) beg (m - 1)) m e =
                segL (swapChains u (m - 1) beg) m e := by
              apply segL_congr _ _ m e (by omega) (by rw [ih1len])
              intro k' hk1' hk2'
              exact ih1unch k' (by omega)
            have p3h2 : segL (swapChains u (m - 1) beg) m e = segL u m e := by
              apply segL_congr u _ m e (by omega) (by rw [ht2len, hulen])
              intro k' hk1' hk2'
              exact ht2k k' (by omega) (by omega)
            rw [← p3h2, ← p3h1]
            apply ih2perm.subset
            apply getD_mem_segL _ m e k hk1 hk2
            omega
          exact hall _ hmem
        have hD : ∀ i j, beg ≤ i → i ≤ j → j < m - 1 →
            endAt (qsAux n (qsAux n (swapChains u (m - 1) beg) beg (m - 1)) m e) i ≤
              endAt (qsAux n (qsAux n (swapChains u (m - 1) beg) beg (m - 1)) m e) j := by
          intro i j h1 h2 h3
          have hei : endAt (qsAux n (qsAux n (swapChains u (m - 1) beg) beg (m - 1)) m e) i =
              endAt (qsAux n (swapChains u (m - 1) beg) beg (m - 1)) i := by
            unfold endAt
            rw [ih2unch i (by omega)]
          have hej : endAt (qsAux n (qsAux n (swapChains u (m - 1) beg) beg (m - 1)) m e) j =
              endAt (qsAux n (swapChains u (m - 1) beg) beg (m - 1)) j := by
            unfold endAt
            rw [ih2unch j (by omega)]
          rw [hei, hej]
          exact ih1sort i j h1 h2 h3
        intro i j h1 h2 h3
        by_cases hjm : j < m - 1
        · exact hD i j h1 h2 hjm
        · by_cases hjm2 : j = m - 1
          · rcases Nat.eq_or_lt_of_le h2 with heqj | hltj
            · rw [heqj]
            · rw [hjm2, hB]
              exact hA i h1 (by omega)
          · have hjge : m ≤ j := by omega
            by_cases him : m ≤ i
            · exact ih2sort i j him h2 h3
            · have hile : endAt (qsAux n (qsAux n (swapChains u (m - 1) beg) beg (m - 1)) m e)
                  i ≤ (t.getD beg chainD).endpoint := by
                by_cases him1 : i < m - 1
                · exact hA i h1 him1
                · have : i = m - 1 := by omega
                  rw [this, hB]
              exact le_trans hile (le_of_lt (hC j hjge h3))
    · have hstep : qsAux (n + 1) t beg e = t := by
        show (if beg + 1 < e then _ else t) = t
        rw [if_neg hbe]
      rw [hstep]
      refine ⟨rfl, fun k _ => rfl, List.Perm.refl _, ?_⟩
      intro i j h1 h2 h3
      have : i = j := by omega
      rw [this]

/-- Claim C5: for every array of `chainNum` chains,
`quickSortTable(table, 0, chainNum)` returns a permutation of the input
with `table[i].end ≤ table[i+1].end` for every `i < chainNum - 1`. -/
theorem claimC5_quickSort (t : List chain) :
    List.Perm (quickSortTable t 0 t.length) t ∧
    ∀ i, i + 1 < t.length →
      endAt (quickSortTable t 0 t.length) i ≤ endAt (quickSortTable t 0 t.length) (i + 1) := by
  obtain ⟨hlen, hunch, hperm, hsort⟩ :=
    qsAux_spec (t.length - 0) t 0 t.length (le_refl _) (le_refl _)
  have hqt : quickSortTable t 0 t.length = qsAux (t.length - 0) t 0 t.length := rfl
  constructor
  · have h1 : segL (qsAux (t.length - 0) t 0 t.length) 0 t.length =
        qsAux (t.length - 0) t 0 t.length := by
      unfold segL
      rw [List.drop_zero]
      exact List.take_all_of_le (le_of_eq (hlen.trans (Nat.sub_zero t.length).symm))
    have h2 : segL t 0 t.length = t := by
      unfold segL
      rw [List.drop_zero]
      exact List.take_all_of_le (le_of_eq (Nat.sub_zero t.length).symm)
    rw [h1, h2] at hperm
    rw [hqt]
    exact hperm
  · intro i hi
    rw [hqt]
    exact hsort i (i + 1) (Nat.zero_le i) (Nat.le_succ i) hi

/-- Witness for `claimC5_quickSort` on the spec's scenario table
`{(s,2),(s,1),(s,3),(s,1)}`. -/
theorem claimC5_witness :
    List.Perm (quickSortTable [⟨5, 2⟩, ⟨6, 1⟩, ⟨7, 3⟩, ⟨8, 1⟩] 0 4) [⟨5, 2⟩, ⟨6, 1⟩, ⟨7, 3⟩, ⟨8, 1⟩] ∧
    endAt (quickSortTable [⟨5, 2⟩, ⟨6, 1⟩, ⟨7, 3⟩, ⟨8, 1⟩] 0 4) 0 ≤
      endAt (quickSortTable [⟨5, 2⟩, ⟨6, 1⟩, ⟨7, 3⟩, ⟨8, 1⟩] 0 4) 1 :=
  ⟨(claimC5_quickSort [⟨5, 2⟩, ⟨6, 1⟩, ⟨7, 3⟩, ⟨8, 1⟩]).1,
    (claimC5_quickSort [⟨5, 2⟩, ⟨6, 1⟩, ⟨7, 3⟩, ⟨8, 1⟩]).2 0 (by decide)⟩

/-! ## Claim C8: name codec round trip.  Character and scanner lemmas. -/

lemma decReprAux_succ (f n : Nat) : decReprAux (f + 1) n =
    if n < 10 then [digitChar n] else decReprAux f (n / 10) ++ [digitChar (n % 10)] := rfl

lemma digitChar_ge9 (n : Nat) (h : 9 ≤ n) : digitChar n = '9' := by
  rcases n with _ | _ | _ | _ | _ | _ | _ | _ | _ | m
  all_goals first | omega | rfl

lemma digitChar_isDigit (n : Nat) : isDigitCh (digitChar n) = true := by
  by_cases h : n < 10
  · interval_cases n <;> decide
  · rw [digitChar_ge9 n (by omega)]
    decide

lemma digitChar_not_dot (n : Nat) : digitChar n ≠ '.' := by
  by_cases h : n < 10
  · interval_cases n <;> decide
  · rw [digitChar_ge9 n (by omega)]
    decide

lemma digitChar_not_slash (n : Nat) : digitChar n ≠ '/' := by
  by_cases h : n < 10
  · interval_cases n <;> decide
  · rw [digitChar_ge9 n (by omega)]
    decide

lemma digitChar_val (n : Nat) (h : n < 10) : (digitChar n).toNat - 48 = n := by
  interval_cases n <;> decide

lemma digit_not_space (c : Char) (h : isDigitCh c = true) : isSpaceCh c = false := by
  unfold isDigitCh at h
  have h' : 48 ≤ c.toNat ∧ c.toNat ≤ 57 := of_decide_eq_true h
  cases hb : isSpaceCh c
  · rfl
  · unfold isSpaceCh at hb
    have hs : c = ' ' ∨ c = '\t' ∨ c = '\n' ∨ c = '\x0b' ∨ c = '\x0c' ∨ c = '\r' :=
      of_decide_eq_true hb
    rcases hs with rfl | rfl | rfl | rfl | rfl | rfl <;> exact absurd h' (by decide)

lemma decReprAux_chars : ∀ fuel n c, n < fuel → c ∈ decReprAux fuel n → ∃ m, c = digitChar m := by
  intro fuel
  induction fuel with
  | zero =>
    intro n c h
    omega
  | succ f ih =>
    intro n c h hc
    by_cases h10 : n < 10
    · rw [show decReprAux (f + 1) n = [digitChar n] from by
        rw [decReprAux_succ]; rw [if_pos h10]] at hc
      exact ⟨n, by simpa using hc⟩
    · rw [show decReprAux (f + 1) n = decReprAux f (n / 10) ++ [digitChar (n % 10)] from by
        rw [decReprAux_succ]; rw [if_neg h10]] at hc
      rcases List.mem_append.mp hc with h1 | h2
      · have hdiv : n / 10 < n := Nat.div_lt_self (by omega) (by omega)
        exact ih (n / 10) c (by omega) h1
      · exact ⟨n % 10, by simpa using h2⟩

lemma decRepr_chars (n : Nat) (c : Char) (hc : c ∈ decRepr n) : ∃ m, c = digitChar m :=
  decReprAux_chars (n + 1) n c (Nat.lt_succ_self n) hc

lemma decRepr_digits (n : Nat) (c : Char) (hc : c ∈ decRepr n) : isDigitCh c = true := by
  obtain ⟨m, rfl⟩ := decRepr_chars n c hc
  exact digitChar_isDigit m

lemma decRepr_ne_nil (n : Nat) : decRepr n ≠ [] := by
  unfold decRepr
  rw [decReprAux_succ]
  by_cases h : n < 10
  · rw [if_pos h]
    simp
  · rw [if_neg h]
    simp

lemma digitsVal_decReprAux : ∀ fuel n a, n < fuel →
    (decReprAux fuel n).foldl (fun acc c => acc * 10 + (c.toNat - 48)) a =
      a * 10 ^ (decReprAux fuel n).length + n := by
  intro fuel
  induction fuel with
  | zero =>
    intro n a h
    omega
  | succ f ih =>
    intro n a h
    by_cases h10 : n < 10
    · rw [show decReprAux (f + 1) n = [digitChar n] from by
        rw [decReprAux_succ]; rw [if_pos h10]]
      simp only [List.foldl_cons, List.foldl_nil, List.length_cons, List.length_nil,
        Nat.zero_add, pow_one]
      rw [digitChar_val n h10]
    · rw [show decReprAux (f + 1) n = decReprAux f (n / 10) ++ [digitChar (n % 10)] from by
        rw [decReprAux_succ]; rw [if_neg h10]]
      have hdiv : n / 10 < n := Nat.div_lt_self (by omega) (by omega)
      rw [List.foldl_append, ih (n / 10) a (by omega)]
      simp only [List.foldl_cons, List.foldl_nil, List.length_append, List.length_cons,
        List.length_nil, Nat.zero_add]
      rw [digitChar_val (n % 10) (Nat.mod_lt n (by omega))]
      have hpow : 10 ^ ((decReprAux f (n / 10)).length + 1) =
          10 ^ (decReprAux f (n / 10)).length * 10 := pow_succ 10 _
      rw [hpow]
      have hring : (a * 10 ^ (decReprAux f (n / 10)).length + n / 10) * 10 + n % 10 =
          a * (10 ^ (decReprAux f (n / 10)).length * 10) + (10 * (n / 10) + n % 10) := by
        ring
      rw [hring, Nat.div_add_mod]

lemma digitsVal_decRepr (n : Nat) : digitsVal (decRepr n) = n := by
  have h := digitsVal_decReprAux (n + 1) n 0 (Nat.lt_succ_self n)
  simpa [digitsVal, decRepr] using h

lemma takeWhile_append_all (p : Char → Bool) (a b : List Char)
    (h : ∀ x ∈ a, p x = true) : (a ++ b).takeWhile p = a ++ b.takeWhile p := by
  induction a with
  | nil => simp
  | cons x xs ih =>
    have hx : p x = true := h x (List.mem_cons_self x xs)
    rw [List.cons_append, List.takeWhile_cons, if_pos hx,
      ih (fun y hy => h y (List.mem_cons_of_mem x hy)), List.cons_append]

lemma takeWhile_cons_of_neg (p : Char → Bool) (x : Char) (l : List Char) (h : p x = false) :
    (x :: l).takeWhile p = [] := by
  rw [List.takeWhile_cons, if_neg (by simp [h])]

lemma dropWhile_cons_of_neg (p : Char → Bool) (x : Char) (l : List Char) (h : p x = false) :
    (x :: l).dropWhile p = x :: l := by
  rw [List.dropWhile_cons, if_neg (by simp [h])]

lemma skipWs_cons_false (c : Char) (s : List Char) (h : isSpaceCh c = false) :
    skipWs (c :: s) = c :: s := by
  unfold skipWs
  exact dropWhile_cons_of_neg isSpaceCh c s h

lemma scanStr_name (name rest : List Char) (hne : name ≠ [])
    (hns : ∀ c ∈ name, isSpaceCh c = false) :
    scanStr (name ++ ' ' :: rest) = some (name, ' ' :: rest) := by
  obtain ⟨c, name', rfl⟩ : ∃ c n', name = c :: n' := by
    cases name with
    | nil => exact absurd rfl hne
    | cons c n' => exact ⟨c, n', rfl⟩
  have hc : isSpaceCh c = false := hns c (List.mem_cons_self c name')
  have hskip : skipWs ((c :: name') ++ ' ' :: rest) = c :: (name' ++ ' ' :: rest) := by
    rw [List.cons_append]
    exact skipWs_cons_false c _ hc
  have htok : (c :: (name' ++ ' ' :: rest)).takeWhile (fun x => !isSpaceCh x) = c :: name' := by
    rw [show c :: (name' ++ ' ' :: rest) = (c :: name') ++ ' ' :: rest from rfl,
      takeWhile_append_all _ (c :: name') (' ' :: rest)
        (fun x hx => by rw [hns x hx]; rfl),
      takeWhile_cons_of_neg _ ' ' rest (by decide), List.append_nil]
  have hdrop : (c :: (name' ++ ' ' :: rest)).drop (c :: name').length = ' ' :: rest := by
    rw [show c :: (name' ++ ' ' :: rest) = (c :: name') ++ ' ' :: rest from rfl]
    exact List.drop_left (c :: name') (' ' :: rest)
  unfold scanStr
  rw [hskip]
  dsimp only
  rw [htok, hdrop]

lemma scanU_run (ds rest : List Char) (hne : ds ≠ [])
    (hds : ∀ c ∈ ds, isDigitCh c = true)
    (hrest : ∀ r0 rs, rest = r0 :: rs → isDigitCh r0 = false) :
    scanU (ds ++ rest) = some (digitsVal ds % U32, rest) := by
  obtain ⟨d, ds', rfl⟩ : ∃ d ds', ds = d :: ds' := by
    cases ds with
    | nil => exact absurd rfl hne
    | cons d ds' => exact ⟨d, ds', rfl⟩
  have hd : isDigitCh d = true := hds d (List.mem_cons_self d ds')
  have hskip : skipWs ((d :: ds') ++ rest) = (d :: ds') ++ rest := by
    rw [List.cons_append]
    exact skipWs_cons_false d _ (digit_not_space d hd)
  have htw : ((d :: ds') ++ rest).takeWhile isDigitCh = d :: ds' := by
    rw [takeWhile_append_all isDigitCh (d :: ds') rest hds]
    cases rest with
    | nil => simp
    | cons r0 rs =>
      rw [takeWhile_cons_of_neg isDigitCh r0 rs (hrest r0 rs rfl), List.append_nil]
  have hdrop : ((d :: ds') ++ rest).drop (d :: ds').length = rest :=
    List.drop_left (d :: ds') rest
  unfold scanU
  rw [hskip]
  dsimp only
  rw [htw]
  dsimp only
  rw [hdrop]

lemma scanLit_cons (c : Char) (rest : List Char) : scanLit c (c :: rest) = some rest := by
  unfold scanLit
  dsimp only
  rw [if_pos rfl]

lemma set_append_cons (a : List Char) (x y : Char) (b : List Char) :
    (a ++ x :: b).set a.length y = a ++ y :: b := by
  induction a with
  | nil => rfl
  | cons c cs ih =>
    show c :: ((cs ++ x :: b).set cs.length y) = c :: (cs ++ y :: b)
    rw [ih]

lemma findFirstDot_append (a b : List Char) (ha : ∀ c ∈ a, c ≠ '.') :
    findFirstDot (a ++ '.' :: b) = some a.length := by
  induction a with
  | nil => simp [findFirstDot]
  | cons c cs ih =>
    rw [List.cons_append]
    unfold findFirstDot
    rw [if_neg (ha c (List.mem_cons_self c cs)),
      ih (fun x hx => ha x (List.mem_cons_of_mem c hx))]
    rfl

lemma basenameL_no_slash (s : List Char) (h : ∀ c ∈ s, c ≠ '/') : basenameL s = s := by
  unfold basenameL
  rw [List.takeWhile_eq_self_iff.mpr ?_, List.reverse_reverse]
  intro c hc
  rw [decide_eq_true_eq]
  exact h c (List.mem_reverse.mp hc)

lemma scanU_decRepr (n : Nat) (hn : n < U32) (rest : List Char) :
    scanU (decRepr n ++ '.' :: rest) = some (n, '.' :: rest) := by
  rw [scanU_run (decRepr n) ('.' :: rest) (decRepr_ne_nil n) (decRepr_digits n) ?_]
  · rw [digitsVal_decRepr, Nat.mod_eq_of_lt hn]
  · intro r0 rs heq
    injection heq with h1 _
    rw [← h1]
    decide

lemma skipWs_decRepr (n : Nat) (rest : List Char) :
    skipWs (decRepr n ++ rest) = decRepr n ++ rest := by
  cases hd : decRepr n with
  | nil => exact absurd hd (decRepr_ne_nil n)
  | cons d ds =>
    rw [List.cons_append]
    refine skipWs_cons_false d _ (digit_not_space d (decRepr_digits n d ?_))
    rw [hd]
    exact List.mem_cons_self d ds

lemma sscanfTable_roundtrip (name : List Char) (cn cl idx : Nat)
    (hne : name ≠ []) (hns : ∀ c ∈ name, isSpaceCh c = false)
    (hcn : cn < U32) (hcl : cl < U32) (hidx : idx < U32) :
    sscanfTable (name ++ ' ' ::
        (decRepr cn ++ '.' :: (decRepr cl ++ '.' :: (decRepr idx ++ '.' :: ['r', 't'])))) =
      (4, some name, some cn, some cl, some idx) := by
  have h1 := scanStr_name name
    (decRepr cn ++ '.' :: (decRepr cl ++ '.' :: (decRepr idx ++ '.' :: ['r', 't']))) hne hns
  have h2 : skipWs (' ' ::
      (decRepr cn ++ '.' :: (decRepr cl ++ '.' :: (decRepr idx ++ '.' :: ['r', 't'])))) =
      decRepr cn ++ '.' :: (decRepr cl ++ '.' :: (decRepr idx ++ '.' :: ['r', 't'])) := by
    unfold skipWs
    rw [List.dropWhile_cons, if_pos (by decide)]
    exact skipWs_decRepr cn _
  unfold sscanfTable
  rw [h1]
  dsimp only
  rw [h2, scanU_decRepr cn hcn _]
  dsimp only
  rw [scanLit_cons]
  dsimp only
  rw [scanU_decRepr cl hcl _]
  dsimp only
  rw [scanLit_cons]
  dsimp only
  rw [scanU_decRepr idx hidx ['r', 't']]

/-- Claim C8 as amended: decoding recovers `(name, chain_num, chain_len)`
for every hash name that is nonempty and contains no `.`, no whitespace and
no `/`, provided the formatted name fits `snprintf`'s 512-byte buffer.  The
counterexample `claimC8_counterexample` shows the claim fails for names
with other byte values (a space breaks the `sscanf` space-injection trick;
a `/` changes the basename; truncation breaks long names). -/
theorem claimC8_amended (name : List Char) (cn cl idx : Nat)
    (hne : name ≠ [])
    (hchars : ∀ c ∈ name, c ≠ '.' ∧ isSpaceCh c = false ∧ c ≠ '/')
    (hcn : cn < U32) (hcl : cl < U32) (hidx : idx < U32)
    (hlen : name.length + (decRepr cn).length + (decRepr cl).length +
      (decRepr idx).length + 6 ≤ 511) :
    parseTablename (generateTableName name cn cl idx) = ⟨1, some name, some cn, some cl⟩ := by
  have hassoc : name ++ ('.' :: decRepr cn) ++ ('.' :: decRepr cl) ++ ('.' :: decRepr idx) ++
      ['.', 'r', 't'] =
      name ++ '.' :: (decRepr cn ++ '.' :: (decRepr cl ++ '.' :: (decRepr idx ++ '.' :: ['r', 't']))) := by
    simp [List.append_assoc]
  have hgen : generateTableName name cn cl idx =
      name ++ '.' :: (decRepr cn ++ '.' :: (decRepr cl ++ '.' :: (decRepr idx ++ '.' :: ['r', 't']))) := by
    unfold generateTableName
    rw [hassoc]
    apply List.take_all_of_le
    simp only [List.length_append, List.length_cons, List.length_nil]
    omega
  have hslash : ∀ c ∈ name ++ '.' ::
      (decRepr cn ++ '.' :: (decRepr cl ++ '.' :: (decRepr idx ++ '.' :: ['r', 't']))), c ≠ '/' := by
    intro c hc
    rcases List.mem_append.mp hc with h | h
    · exact (hchars c h).2.2
    rcases List.mem_cons.mp h with rfl | h
    · decide
    rcases List.mem_append.mp h with h | h
    · obtain ⟨m, rfl⟩ := decRepr_chars cn c h
      exact digitChar_not_slash m
    rcases List.mem_cons.mp h with rfl | h
    · decide
    rcases List.mem_append.mp h with h | h
    · obtain ⟨m, rfl⟩ := decRepr_chars cl c h
      exact digitChar_not_slash m
    rcases List.mem_cons.mp h with rfl | h
    · decide
    rcases List.mem_append.mp h with h | h
    · obtain ⟨m, rfl⟩ := decRepr_chars idx c h
      exact digitChar_not_slash m
    rcases List.mem_cons.mp h with rfl | h
    · decide
    rcases List.mem_cons.mp h with rfl | h
    · decide
    rcases List.mem_cons.mp h with rfl | h
    · decide
    exact absurd h (List.not_mem_nil c)
  have hbase : basenameL (name ++ '.' ::
      (decRepr cn ++ '.' :: (decRepr cl ++ '.' :: (decRepr idx ++ '.' :: ['r', 't'])))) =
      name ++ '.' :: (decRepr cn ++ '.' :: (decRepr cl ++ '.' :: (decRepr idx ++ '.' :: ['r', 't']))) :=
    basenameL_no_slash _ hslash
  have hdot : findFirstDot (name ++ '.' ::
      (decRepr cn ++ '.' :: (decRepr cl ++ '.' :: (decRepr idx ++ '.' :: ['r', 't'])))) =
      some name.length :=
    findFirstDot_append name _ (fun c hc => (hchars c hc).1)
  have hset : (name ++ '.' ::
      (decRepr cn ++ '.' :: (decRepr cl ++ '.' :: (decRepr idx ++ '.' :: ['r', 't'])))).set
        name.length ' ' =
      name ++ ' ' :: (decRepr cn ++ '.' :: (decRepr cl ++ '.' :: (decRepr idx ++ '.' :: ['r', 't']))) :=
    set_append_cons name '.' ' ' _
  have hsc := sscanfTable_roundtrip name cn cl idx hne (fun c hc => (hchars c hc).2.1)
    hcn hcl hidx
  rw [hgen]
  unfold parseTablename
  dsimp only
  rw [hbase, hdot]
  dsimp only
  rw [hset, hsc]

/-- Witness for `claimC8_amended`: the spec's scenario
`wikihash.1000.100.0.rt` decodes back to `(wikihash, 1000, 100)`. -/
theorem claimC8_amended_witness :
    parseTablename (generateTableName ['w', 'i', 'k', 'i', 'h', 'a', 's', 'h'] 1000 100 0) =
      ⟨1, some ['w', 'i', 'k', 'i', 'h', 'a', 's', 'h'], some 1000, some 100⟩ :=
  claimC8_amended ['w', 'i', 'k', 'i', 'h', 'a', 's', 'h'] 1000 100 0 (by decide)
    (by decide) (by decide) (by decide) (by decide) (by decide)

end Snowflake
